import Mathlib

set_option linter.unusedVariables false

/-!
Verification development for the fractalRenderer repository (Go).

The claims concern the tiled Julia-set renderer: `generateJuliaTile`,
`getTileKey`, the tile cache (`cacheTile`, `getCachedTile`), the batch
scheduler (`generateJuliaSet`), the websocket session handler, and the
coloring registry (`ReturnRGBA` in color_algorithms.go), plus the
encode-and-drop loop of the earlier tiled design (modelled with a `P0`
prefix).

Modelling conventions:
* Go `float64` values are idealized as exact rationals (`ℚ`).  Decimal
  literals of the source (`0.1`, `0.8`, ...) become the exact rationals
  they denote.  The escape test `cmplx.Abs(z) > 2` is embedded as
  `4 < normSq z`, which is equivalent over exact arithmetic.
* Transcendental library functions (`math.Sin`, `math.Log`, `math.Exp`,
  `math.Pow`, `math.Atan2`, `math.Pi`, `math.Sqrt`, and the external
  `colorful.Hsv(..).RGB255()` conversion) are not exactly representable,
  so the coloring layer is parameterized by a `FloatOps` record holding
  them; theorems quantify over all such records and witnesses use a
  concrete computable instance.
* `png.Encode` followed by base64 is a deterministic lossless encoding of
  the pixel matrix (an external collaborator per the spec), so a tile's
  encoded image payload is identified with its pixel matrix: two payloads
  are byte-identical iff the pixel matrices (with their dimensions) agree.
* Go maps are modelled as association lists with unique keys; the Go map
  iteration order in the eviction scan is the list order.  `time.Now()`
  timestamps are supplied as explicit `Nat` arguments.
* Go `int` is modelled as `Int` (no claim exercises 64-bit overflow);
  Go integer division/modulus (truncation toward zero) is `Int.tdiv` /
  `Int.tmod`, and conversions `uint8(..)` reduce modulo 256.
-/

/-- Complex numbers over the idealized rational floats (Go `complex128`). -/
structure QComplex where
  re : ℚ
  im : ℚ
deriving DecidableEq

/-- Complex addition. -/
def QComplex.add (a b : QComplex) : QComplex :=
  ⟨a.re + b.re, a.im + b.im⟩

/-- Complex multiplication (used for the `z*z` step of the escape loop). -/
def QComplex.mul (a b : QComplex) : QComplex :=
  ⟨a.re * b.re - a.im * b.im, a.re * b.im + a.im * b.re⟩

/-- Squared magnitude; `cmplx.Abs(z) > 2` is embedded as `4 < normSq z`. -/
def QComplex.normSq (a : QComplex) : ℚ :=
  a.re * a.re + a.im * a.im

/-- Decimal digit to character, as produced by Go integer formatting. -/
def digitCh : Nat → Char
  | 0 => '0'
  | 1 => '1'
  | 2 => '2'
  | 3 => '3'
  | 4 => '4'
  | 5 => '5'
  | 6 => '6'
  | 7 => '7'
  | 8 => '8'
  | _ => '9'

/-- Numeric value of a (digit) character. -/
def digitVal (c : Char) : Nat :=
  c.toNat - 48

/-- Fuel-bounded decimal digit expansion (most significant digit first).
The fuel only bounds the recursion depth; `natChars` supplies `n + 1`,
which always suffices. -/
def natCharsAux : Nat → Nat → List Char
  | 0, _ => []
  | fuel + 1, n =>
    if n < 10 then [digitCh n]
    else natCharsAux fuel (n / 10) ++ [digitCh (n % 10)]

/-- Decimal representation of a natural number, as Go `%d` prints it. -/
def natChars (n : Nat) : List Char :=
  natCharsAux (n + 1) n

/-- Parse a decimal digit string back to a natural number. -/
def charsToNat (cs : List Char) : Nat :=
  cs.foldl (fun acc c => 10 * acc + digitVal c) 0

theorem digitVal_digitCh {d : Nat} (h : d < 10) : digitVal (digitCh d) = d := by
  interval_cases d <;> decide

theorem digitCh_ne_comma {d : Nat} (h : d < 10) : digitCh d ≠ ',' := by
  interval_cases d <;> decide

theorem digitCh_ne_minus {d : Nat} (h : d < 10) : digitCh d ≠ '-' := by
  interval_cases d <;> decide

theorem charsToNat_append_digit (l : List Char) (c : Char) :
    charsToNat (l ++ [c]) = 10 * charsToNat l + digitVal c := by
  simp [charsToNat, List.foldl_append]

theorem natCharsAux_fuel (n : Nat) : ∀ fuel₁ fuel₂, n < fuel₁ → n < fuel₂ →
    natCharsAux fuel₁ n = natCharsAux fuel₂ n := by
  induction n using Nat.strong_induction_on with
  | _ n ih =>
    intro fuel₁ fuel₂ h₁ h₂
    match fuel₁, fuel₂ with
    | f₁ + 1, f₂ + 1 =>
      by_cases h10 : n < 10
      · simp [natCharsAux, h10]
      · have hd : n / 10 < n := Nat.div_lt_self (by omega) (by omega)
        simp only [natCharsAux, h10, if_false]
        rw [ih _ hd f₁ f₂ (by omega) (by omega)]

theorem natChars_unfold (n : Nat) :
    natChars n = if n < 10 then [digitCh n]
      else natChars (n / 10) ++ [digitCh (n % 10)] := by
  by_cases h10 : n < 10
  · simp [natChars, natCharsAux, h10]
  · have hd : n / 10 < n := Nat.div_lt_self (by omega) (by omega)
    simp only [natChars, natCharsAux, h10, if_false]
    rw [natCharsAux_fuel (n / 10) n (n / 10 + 1) (by omega) (by omega)]
    simp only [natCharsAux]

theorem charsToNat_natChars (n : Nat) : charsToNat (natChars n) = n := by
  induction n using Nat.strong_induction_on with
  | _ n ih =>
    rw [natChars_unfold]
    by_cases h10 : n < 10
    · simp [h10, charsToNat, digitVal_digitCh h10]
    · have hd : n / 10 < n := Nat.div_lt_self (by omega) (by omega)
      rw [if_neg h10, charsToNat_append_digit, ih _ hd,
        digitVal_digitCh (Nat.mod_lt _ (by omega))]
      omega

theorem natChars_mem {n : Nat} {c : Char} (h : c ∈ natChars n) :
    ∃ d, d < 10 ∧ c = digitCh d := by
  induction n using Nat.strong_induction_on with
  | _ n ih =>
    rw [natChars_unfold] at h
    by_cases h10 : n < 10
    · rw [if_pos h10] at h
      simp only [List.mem_singleton] at h
      exact ⟨n, h10, h⟩
    · have hd : n / 10 < n := Nat.div_lt_self (by omega) (by omega)
      rw [if_neg h10] at h
      rcases List.mem_append.1 h with h' | h'
      · exact ih _ hd h'
      · simp only [List.mem_singleton] at h'
        exact ⟨n % 10, Nat.mod_lt _ (by omega), h'⟩

theorem natChars_ne_nil (n : Nat) : natChars n ≠ [] := by
  rw [natChars_unfold]
  by_cases h10 : n < 10
  · simp [h10]
  · simp [h10]

theorem comma_not_mem_natChars (n : Nat) : ',' ∉ natChars n := by
  intro h
  obtain ⟨d, hd, he⟩ := natChars_mem h
  exact digitCh_ne_comma hd he.symm

theorem minus_not_mem_natChars (n : Nat) : '-' ∉ natChars n := by
  intro h
  obtain ⟨d, hd, he⟩ := natChars_mem h
  exact digitCh_ne_minus hd he.symm

section TileEngine

attribute [local semireducible] Rat.add Rat.mul Rat.inv Rat.sub Rat.ofScientific

/-- Go `%d` formatting of an `int` (decimal, `-` sign for negatives). -/
def intChars (i : Int) : List Char :=
  if i < 0 then '-' :: natChars (-i).toNat else natChars i.toNat

/-- Parse the `%d` representation back; left inverse of `intChars`. -/
def charsToInt (cs : List Char) : Int :=
  match cs with
  | [] => 0
  | c :: rest => if c = '-' then -(charsToNat rest : Int) else charsToNat (c :: rest)

theorem charsToInt_minus (rest : List Char) :
    charsToInt ('-' :: rest) = -(charsToNat rest : Int) := by
  simp [charsToInt]

theorem charsToInt_intChars (i : Int) : charsToInt (intChars i) = i := by
  by_cases hneg : i < 0
  · rw [intChars, if_pos hneg, charsToInt_minus, charsToNat_natChars]
    omega
  · simp only [intChars, if_neg hneg]
    rcases hcons : natChars i.toNat with _ | ⟨c, rest⟩
    · exact absurd hcons (natChars_ne_nil _)
    · have hc : c ≠ '-' := by
        intro hc
        exact minus_not_mem_natChars i.toNat (by rw [hcons, hc]; exact List.mem_cons_self _ _)
      rw [charsToInt, if_neg hc, ← hcons, charsToNat_natChars]
      omega

theorem intChars_inj {i j : Int} (h : intChars i = intChars j) : i = j := by
  have := congrArg charsToInt h
  rwa [charsToInt_intChars, charsToInt_intChars] at this

theorem comma_not_mem_intChars (i : Int) : ',' ∉ intChars i := by
  unfold intChars
  by_cases hneg : i < 0
  · rw [if_pos hneg]
    intro h
    rcases List.mem_cons.1 h with h' | h'
    · exact absurd h'.symm (by decide)
    · exact comma_not_mem_natChars _ h'
  · rw [if_neg hneg]
    exact comma_not_mem_natChars _

/-- Floor of a rational as an integer (used by the `%f` rounding model). -/
def qfloor (q : ℚ) : Int :=
  Int.fdiv q.num q.den

/-- Round to the nearest integer, ties to even, as Go's `strconv`
fixed-precision decimal formatting does. -/
def roundHalfEven (q : ℚ) : Int :=
  let n := qfloor q
  let f := q - (n : ℚ)
  if f < 1/2 then n
  else if (1/2 : ℚ) < f then n + 1
  else if n % 2 = 0 then n else n + 1

/-- Left-pad a digit string with zeros to six characters. -/
def pad6 (cs : List Char) : List Char :=
  List.replicate (6 - cs.length) '0' ++ cs

/-- Go `%f` formatting of a nonnegative value: the decimal expansion rounded
to six fractional digits. -/
def fmtFAbs (q : ℚ) : List Char :=
  let n := (roundHalfEven (q * 1000000)).toNat
  natChars (n / 1000000) ++ '.' :: pad6 (natChars (n % 1000000))

/-- Go `%f` formatting of a `float64` (idealized): sign, integer part, `.`,
six fractional digits. -/
def fmtF (q : ℚ) : List Char :=
  if q < 0 then '-' :: fmtFAbs (-q) else fmtFAbs q

theorem comma_not_mem_pad6 {cs : List Char} (h : ',' ∉ cs) : ',' ∉ pad6 cs := by
  unfold pad6
  intro hm
  rcases List.mem_append.1 hm with h' | h'
  · exact absurd (List.eq_of_mem_replicate h') (by decide)
  · exact h h'

theorem comma_not_mem_fmtFAbs (q : ℚ) : ',' ∉ fmtFAbs q := by
  unfold fmtFAbs
  intro hm
  rcases List.mem_append.1 hm with h' | h'
  · exact comma_not_mem_natChars _ h'
  · rcases List.mem_cons.1 h' with h'' | h''
    · exact absurd h''.symm (by decide)
    · exact comma_not_mem_pad6 (comma_not_mem_natChars _) h''

theorem comma_not_mem_fmtF (q : ℚ) : ',' ∉ fmtF q := by
  unfold fmtF
  by_cases hneg : q < 0
  · rw [if_pos hneg]
    intro h
    rcases List.mem_cons.1 h with h' | h'
    · exact absurd h'.symm (by decide)
    · exact comma_not_mem_fmtFAbs _ h'
  · rw [if_neg hneg]
    exact comma_not_mem_fmtFAbs _

theorem fmtFAbs_ne_nil (q : ℚ) : fmtFAbs q ≠ [] := by
  unfold fmtFAbs
  intro h
  exact natChars_ne_nil _ (List.append_eq_nil.1 h).1

theorem fmtF_ne_nil (q : ℚ) : fmtF q ≠ [] := by
  unfold fmtF
  by_cases hneg : q < 0
  · simp [if_pos hneg]
  · rw [if_neg hneg]
    exact fmtFAbs_ne_nil q

/-- Join formatted fields with a comma separator, as the `Sprintf` format
string of `getTileKey` interleaves them. -/
def joinComma : List (List Char) → List Char
  | [] => []
  | [f] => f
  | f :: g :: rest => f ++ ',' :: joinComma (g :: rest)

theorem append_comma_inj : ∀ {a₁ a₂ b₁ b₂ : List Char}, ',' ∉ a₁ → ',' ∉ a₂ →
    a₁ ++ ',' :: b₁ = a₂ ++ ',' :: b₂ → a₁ = a₂ ∧ b₁ = b₂ := by
  intro a₁
  induction a₁ with
  | nil =>
    intro a₂ b₁ b₂ _ h₂ h
    cases a₂ with
    | nil => simpa using h
    | cons c cs =>
      simp only [List.nil_append, List.cons_append, List.cons.injEq] at h
      exact absurd (h.1 ▸ List.mem_cons_self c cs) h₂
  | cons c cs ih =>
    intro a₂ b₁ b₂ h₁ h₂ h
    cases a₂ with
    | nil =>
      simp only [List.cons_append, List.nil_append, List.cons.injEq] at h
      exact absurd (h.1 ▸ List.mem_cons_self c cs) h₁
    | cons d ds =>
      simp only [List.cons_append, List.cons.injEq] at h
      obtain ⟨hcd, hrest⟩ := h
      obtain ⟨hl, hr⟩ := ih (fun hm => h₁ (List.mem_cons_of_mem _ hm))
        (fun hm => h₂ (List.mem_cons_of_mem _ hm)) hrest
      exact ⟨by rw [hcd, hl], hr⟩

theorem joinComma_inj : ∀ {fs₁ fs₂ : List (List Char)}, fs₁.length = fs₂.length →
    (∀ f ∈ fs₁, ',' ∉ f) → (∀ f ∈ fs₂, ',' ∉ f) →
    joinComma fs₁ = joinComma fs₂ → fs₁ = fs₂ := by
  intro fs₁
  induction fs₁ with
  | nil =>
    intro fs₂ hlen _ _ _
    exact (List.length_eq_zero.1 hlen.symm).symm ▸ rfl
  | cons f fs ih =>
    intro fs₂ hlen hc₁ hc₂ h
    cases fs₂ with
    | nil => simp at hlen
    | cons g gs =>
      cases fs with
      | nil =>
        cases gs with
        | nil => simpa [joinComma] using h
        | cons g' gs' => simp at hlen
      | cons f' fs' =>
        cases gs with
        | nil => simp at hlen
        | cons g' gs' =>
          simp only [joinComma] at h
          obtain ⟨hfg, hrest⟩ := append_comma_inj
            (hc₁ f (List.mem_cons_self _ _)) (hc₂ g (List.mem_cons_self _ _)) h
          have := ih (by simpa using hlen)
            (fun x hx => hc₁ x (List.mem_cons_of_mem _ hx))
            (fun x hx => hc₂ x (List.mem_cons_of_mem _ hx)) hrest
          rw [hfg, this]

/-- Render configuration, from the `JuliaParams` struct of the tiled server
(fields `C`, `Center`, `Zoom`, `Coloring`, `MaxIterations`, `Width`,
`Height`, `LOD`). -/
structure JuliaParams where
  c : QComplex
  center : QComplex
  zoom : ℚ
  coloring : Int
  maxIterations : Int
  width : Int
  height : Int
  lod : Int
deriving DecidableEq

/-- Sub-pixel panning offset (the `Offset` struct). -/
structure Offset where
  x : ℚ
  y : ℚ
deriving DecidableEq

/-- One RGBA pixel (the Go `color.RGBA` struct; channels are bytes). -/
structure RGBA where
  r : Nat
  g : Nat
  b : Nat
  a : Nat
deriving DecidableEq

/-- A rendered tile (the `Tile` struct of the tiled server).  The `image`
field stands for the PNG-encoded byte payload: the codec is an external,
deterministic, lossless collaborator, so the payload is identified with
the pixel matrix it encodes. -/
structure Tile where
  x : Int
  y : Int
  width : Int
  height : Int
  lod : Int
  image : List (List RGBA)
  lastAccessed : Nat
deriving DecidableEq

/-- One requested tile of a batch (the `TileRequest` struct). -/
structure TileRequest where
  x : Int
  y : Int
  lod : Int
deriving DecidableEq

/-- The `TileSize` constant of the tiled server. -/
def TileSize : Int := 128

/-- The `MaxCacheSize` constant. -/
def MaxCacheSize : Nat := 1000

/-- The cache key, embedded from `getTileKey`:
`fmt.Sprintf("%f,%f,%f,%f,%f,%d,%d,%d,%d,%d,%d,%d,%f,%f", C.Real, C.Imag,
Center.Real, Center.Imag, Zoom, MaxIterations, Width, Height, Coloring,
x, y, lod, offset.X, offset.Y)`. -/
def getTileKey (p : JuliaParams) (x y lod : Int) (o : Offset) : String :=
  String.mk (joinComma
    [fmtF p.c.re, fmtF p.c.im, fmtF p.center.re, fmtF p.center.im, fmtF p.zoom,
     intChars p.maxIterations, intChars p.width, intChars p.height,
     intChars p.coloring, intChars x, intChars y, intChars lod,
     fmtF o.x, fmtF o.y])

theorem getTileKey_fields {p₁ p₂ : JuliaParams} {x₁ y₁ l₁ x₂ y₂ l₂ : Int}
    {o₁ o₂ : Offset} (h : getTileKey p₁ x₁ y₁ l₁ o₁ = getTileKey p₂ x₂ y₂ l₂ o₂) :
    fmtF p₁.c.re = fmtF p₂.c.re ∧ fmtF p₁.c.im = fmtF p₂.c.im ∧
    fmtF p₁.center.re = fmtF p₂.center.re ∧ fmtF p₁.center.im = fmtF p₂.center.im ∧
    fmtF p₁.zoom = fmtF p₂.zoom ∧
    p₁.maxIterations = p₂.maxIterations ∧ p₁.width = p₂.width ∧
    p₁.height = p₂.height ∧ p₁.coloring = p₂.coloring ∧
    x₁ = x₂ ∧ y₁ = y₂ ∧ l₁ = l₂ ∧
    fmtF o₁.x = fmtF o₂.x ∧ fmtF o₁.y = fmtF o₂.y := by
  have hdata : joinComma _ = joinComma _ :=
    congrArg String.data h
  have hfields := joinComma_inj (by simp) ?_ ?_ hdata
  · simp only [List.cons.injEq, and_true] at hfields
    obtain ⟨e₁, e₂, e₃, e₄, e₅, e₆, e₇, e₈, e₉, e₁₀, e₁₁, e₁₂, e₁₃, e₁₄⟩ := hfields
    exact ⟨e₁, e₂, e₃, e₄, e₅, intChars_inj e₆, intChars_inj e₇, intChars_inj e₈,
      intChars_inj e₉, intChars_inj e₁₀, intChars_inj e₁₁, intChars_inj e₁₂, e₁₃, e₁₄⟩
  · intro f hf
    simp only [List.mem_cons, List.not_mem_nil, or_false] at hf
    rcases hf with rfl | rfl | rfl | rfl | rfl | rfl | rfl | rfl | rfl | rfl | rfl | rfl | rfl | rfl
    all_goals first
      | exact comma_not_mem_fmtF _
      | exact comma_not_mem_intChars _
  · intro f hf
    simp only [List.mem_cons, List.not_mem_nil, or_false] at hf
    rcases hf with rfl | rfl | rfl | rfl | rfl | rfl | rfl | rfl | rfl | rfl | rfl | rfl | rfl | rfl
    all_goals first
      | exact comma_not_mem_fmtF _
      | exact comma_not_mem_intChars _

theorem getTileKey_ne_empty (p : JuliaParams) (x y lod : Int) (o : Offset) :
    getTileKey p x y lod o ≠ "" := by
  unfold getTileKey
  intro h
  have hdata : joinComma _ = ([] : List Char) := congrArg String.data h
  rw [joinComma] at hdata
  exact fmtF_ne_nil p.c.re (List.append_eq_nil.1 hdata).1

/-- External floating-point library surface used by the coloring
algorithms: `math.Sin/Cos/Log/Exp/Pow/Sqrt/Atan2/Pi` and the
`colorful.Hsv(h, s, v).RGB255()` conversion of the go-colorful package.
These are external collaborators; theorems quantify over them. -/
structure FloatOps where
  sin : ℚ → ℚ
  cos : ℚ → ℚ
  log : ℚ → ℚ
  exp : ℚ → ℚ
  pow : ℚ → ℚ → ℚ
  sqrt : ℚ → ℚ
  atan2 : ℚ → ℚ → ℚ
  pi : ℚ
  hsv : ℚ → ℚ → ℚ → Nat × Nat × Nat

/-- Truncation toward zero, as Go `int(..)` conversion of a float. -/
def qtrunc (q : ℚ) : Int :=
  Int.tdiv q.num q.den

/-- Go `uint8(..)` conversion of a float: truncate toward zero, take the
low byte. -/
def u8 (q : ℚ) : Nat :=
  ((qtrunc q).emod 256).toNat

/-- The `cmplx.Abs` magnitude via the external square root. -/
def cAbs (ops : FloatOps) (z : QComplex) : ℚ :=
  ops.sqrt z.normSq

/-- Coloring algorithm 1 (and the `default` fall-back) of
color_algorithms.go. -/
def SmoothColorHSV (ops : FloatOps) (i maxIterations : Int) (z : QComplex) : RGBA :=
  if i = maxIterations then ⟨0, 0, 0, 255⟩
  else
    let smoothColor : ℚ := (i : ℚ) - ops.log (ops.log (cAbs ops z)) / ops.log 2
    let hue := ops.sin (smoothColor * (1/10))
    let rgb := ops.hsv (hue * 360) (8/10) 1
    ⟨rgb.1, rgb.2.1, rgb.2.2, 255⟩

/-- Coloring algorithm 2. -/
def StripePattern (ops : FloatOps) (i maxIterations : Int) (z : QComplex) : RGBA :=
  if i = maxIterations then ⟨0, 0, 0, 255⟩
  else
    let stripeWidth : Int := 10
    let stripeIndex := Int.tdiv i stripeWidth
    let inStripe := Int.tmod i stripeWidth
    let baseHue : ℚ := ((Int.tmod stripeIndex 6 : Int) : ℚ) / 6
    let hue := baseHue + (inStripe : ℚ) / ((stripeWidth : ℚ) * 6)
    let saturation := 8/10 + 2/10 * ops.sin ((i : ℚ) * (1/10))
    let value := 1 - 1/2 * (inStripe : ℚ) / (stripeWidth : ℚ)
    let rgb := ops.hsv (hue * 360) saturation value
    ⟨rgb.1, rgb.2.1, rgb.2.2, 255⟩

/-- Coloring algorithm 3. -/
def ElectricPlasma (ops : FloatOps) (i maxIterations : Int) (z : QComplex) : RGBA :=
  if i = maxIterations then ⟨0, 0, 0, 255⟩
  else
    let smoothColor : ℚ := (i : ℚ) - ops.log (ops.log (cAbs ops z)) / ops.log 2
    let t := smoothColor / (maxIterations : ℚ)
    ⟨u8 (ops.sin (t * ops.pi) * 127 + 128),
     u8 (ops.sin (t * ops.pi * 2) * 127 + 128),
     u8 (ops.sin (t * ops.pi * 4) * 127 + 128), 255⟩

/-- Coloring algorithm 4. -/
def PsychedelicSwirl (ops : FloatOps) (i maxIterations : Int) (z : QComplex) : RGBA :=
  if i = maxIterations then ⟨0, 0, 0, 255⟩
  else
    let angle := ops.atan2 z.im z.re
    let radius := cAbs ops z
    let hue := (ops.atan2 angle (ops.log radius) + ops.pi) / (2 * ops.pi)
    let saturation := 8/10 + 2/10 * ops.sin ((i : ℚ) * (1/10))
    let value := 1 - ops.pow ((i : ℚ) / (maxIterations : ℚ)) (3/10)
    let rgb := ops.hsv (hue * 360) saturation value
    ⟨rgb.1, rgb.2.1, rgb.2.2, 255⟩

/-- Coloring algorithm 5. -/
def MetallicSheen (ops : FloatOps) (i maxIterations : Int) (z : QComplex) : RGBA :=
  if i = maxIterations then ⟨0, 0, 0, 255⟩
  else
    let smoothColor : ℚ := (i : ℚ) - ops.log (ops.log (cAbs ops z)) / ops.log 2
    let t := smoothColor / (maxIterations : ℚ)
    ⟨u8 (128 + 127 * ops.sin (t * 2 * ops.pi + 0)),
     u8 (128 + 127 * ops.sin (t * 2 * ops.pi + 2 * ops.pi / 3)),
     u8 (128 + 127 * ops.sin (t * 2 * ops.pi + 4 * ops.pi / 3)), 255⟩

/-- Coloring algorithm 6. -/
def RainbowSpiral (ops : FloatOps) (i maxIterations : Int) (z : QComplex) : RGBA :=
  if i = maxIterations then ⟨0, 0, 0, 255⟩
  else
    let smoothColor : ℚ := (i : ℚ) - ops.log (ops.log (cAbs ops z)) / ops.log 2
    let t := smoothColor / (maxIterations : ℚ)
    let rgb := ops.hsv (t * 360) 1 1
    ⟨rgb.1, rgb.2.1, rgb.2.2, u8 (255 * ops.pow (1 - t) 3)⟩

/-- Coloring algorithm 7. -/
def AutumnLeaves (ops : FloatOps) (i maxIterations : Int) (z : QComplex) : RGBA :=
  if i = maxIterations then ⟨0, 0, 0, 255⟩
  else
    let smoothColor : ℚ := (i : ℚ) - ops.log (ops.log (cAbs ops z)) / ops.log 2
    let t := smoothColor / (maxIterations : ℚ)
    let hue := 30 + 60 * ops.sin (t * ops.pi)
    let saturation := 8/10 + 2/10 * ops.cos (t * 2 * ops.pi)
    let value := 7/10 + 3/10 * ops.sin (t * 4 * ops.pi)
    let rgb := ops.hsv hue saturation value
    ⟨rgb.1, rgb.2.1, rgb.2.2, 255⟩

/-- Coloring algorithm 8. -/
def OceanDepths (ops : FloatOps) (i maxIterations : Int) (z : QComplex) : RGBA :=
  if i = maxIterations then ⟨0, 0, 0, 255⟩
  else
    let smoothColor : ℚ := (i : ℚ) - ops.log (ops.log (cAbs ops z)) / ops.log 2
    let t := smoothColor / (maxIterations : ℚ)
    let hue := 180 + 60 * ops.sin (t * ops.pi)
    let saturation := 7/10 + 3/10 * ops.cos (t * 2 * ops.pi)
    let value := 1/2 + 1/2 * ops.pow t (1/2)
    let rgb := ops.hsv hue saturation value
    ⟨rgb.1, rgb.2.1, rgb.2.2, 255⟩

/-- Coloring algorithm 9. -/
def MoltenLava (ops : FloatOps) (i maxIterations : Int) (z : QComplex) : RGBA :=
  if i = maxIterations then ⟨0, 0, 0, 255⟩
  else
    let smoothColor : ℚ := (i : ℚ) - ops.log (ops.log (cAbs ops z)) / ops.log 2
    let t := smoothColor / (maxIterations : ℚ)
    ⟨u8 (255 * ops.pow t (1/2)), u8 (128 * ops.pow t 2), u8 (64 * ops.pow t 4), 255⟩

/-- The `createGreyPalette` table (algorithm 10's lookup table).  The inner
`int(math.Exp(-float64(i)/50))` truncation is modelled with `qtrunc` over the
external `exp`. -/
def createGreyPalette (ops : FloatOps) : List Nat :=
  let base := (List.range 256).map fun (i : Nat) =>
    let e : Int := qtrunc (ops.exp (-(i : ℚ) / 50))
    let p : Nat := (((i : Int) + 512 - Int.tdiv (512 * e) 3).emod 256).toNat
    p <<< 16 ||| p <<< 8 ||| p
  base.set 255 0

/-- The package-level `greyPalette` table. -/
def greyPalette (ops : FloatOps) : List Nat :=
  createGreyPalette ops

/-- Coloring algorithm 10. -/
def GreyPalette (ops : FloatOps) (i maxIterations : Int) (z : QComplex) : RGBA :=
  if i = maxIterations then ⟨0, 0, 0, 255⟩
  else
    let colorInt := (greyPalette ops).getD (Int.tmod i 256).toNat 0
    ⟨colorInt &&& 255, (colorInt >>> 8) &&& 255, (colorInt >>> 16) &&& 255, 255⟩

/-- Coloring algorithm 12's helper blend (defined as `BlendTwoAlgorithms`
in the source; it is not registered under an id of its own). -/
def BlendTwoAlgorithms (ops : FloatOps) (i maxIterations : Int) (z : QComplex) : RGBA :=
  let color1 := SmoothColorHSV ops i maxIterations z
  let color2 := MetallicSheen ops i maxIterations z
  let blendFactor := ops.sin ((i : ℚ) / (maxIterations : ℚ) * ops.pi)
  ⟨u8 ((color1.r : ℚ) * blendFactor + (color2.r : ℚ) * (1 - blendFactor)),
   u8 ((color1.g : ℚ) * blendFactor + (color2.g : ℚ) * (1 - blendFactor)),
   u8 ((color1.b : ℚ) * blendFactor + (color2.b : ℚ) * (1 - blendFactor)), 255⟩

/-- Coloring algorithm 11. -/
def AlternateAlgorithms (ops : FloatOps) (i maxIterations : Int) (z : QComplex)
    (x y : Int) : RGBA :=
  if Int.tmod (x + y) 2 = 0 then ElectricPlasma ops i maxIterations z
  else AutumnLeaves ops i maxIterations z

/-- Coloring algorithm 12. -/
def MixMultipleAlgorithms (ops : FloatOps) (i maxIterations : Int) (z : QComplex) : RGBA :=
  let color1 := StripePattern ops i maxIterations z
  let color2 := MetallicSheen ops i maxIterations z
  let color3 := OceanDepths ops i maxIterations z
  let t := (i : ℚ) / (maxIterations : ℚ)
  let weight1 := ops.sin (t * ops.pi)
  let weight2 := ops.sin (t * 2 * ops.pi)
  let weight3 := ops.sin (t * 4 * ops.pi)
  let totalWeight := weight1 + weight2 + weight3
  ⟨u8 (((color1.r : ℚ) * weight1 + (color2.r : ℚ) * weight2 + (color3.r : ℚ) * weight3) / totalWeight),
   u8 (((color1.g : ℚ) * weight1 + (color2.g : ℚ) * weight2 + (color3.g : ℚ) * weight3) / totalWeight),
   u8 (((color1.b : ℚ) * weight1 + (color2.b : ℚ) * weight2 + (color3.b : ℚ) * weight3) / totalWeight), 255⟩

/-- The coloring registry `ReturnRGBA` of color_algorithms.go: a `switch`
on the coloring id with `SmoothColorHSV` as the `default` branch. -/
def ReturnRGBA (ops : FloatOps) (coloring i maxIterations : Int) (z : QComplex)
    (x y : Int) : RGBA :=
  if coloring = 1 then SmoothColorHSV ops i maxIterations z
  else if coloring = 2 then StripePattern ops i maxIterations z
  else if coloring = 3 then ElectricPlasma ops i maxIterations z
  else if coloring = 4 then PsychedelicSwirl ops i maxIterations z
  else if coloring = 5 then MetallicSheen ops i maxIterations z
  else if coloring = 6 then RainbowSpiral ops i maxIterations z
  else if coloring = 7 then AutumnLeaves ops i maxIterations z
  else if coloring = 8 then OceanDepths ops i maxIterations z
  else if coloring = 9 then MoltenLava ops i maxIterations z
  else if coloring = 10 then GreyPalette ops i maxIterations z
  else if coloring = 11 then AlternateAlgorithms ops i maxIterations z x y
  else if coloring = 12 then MixMultipleAlgorithms ops i maxIterations z
  else SmoothColorHSV ops i maxIterations z

/-- The per-pixel escape loop of `generateJuliaTile`:
`for i = 0; i < maxIterations; i++ { if |z| > 2 break; z = z*z + c }`.
Returns the loop counter at exit and the final `z`.  The fuel equals the
remaining iteration budget, so it is `maxIterations` at the start. -/
def escapeAux (c : QComplex) : QComplex → Nat → Nat → Nat × QComplex
  | z, i, 0 => (i, z)
  | z, i, fuel + 1 =>
    if 4 < z.normSq then (i, z) else escapeAux c ((z.mul z).add c) (i + 1) fuel

/-- Escape-time evaluation of one point: loop state after running the
escape loop with budget `maxIterations` (a nonpositive budget runs zero
iterations, as the Go `for` loop does). -/
def escapeIter (c z : QComplex) (maxIterations : Int) : Nat × QComplex :=
  escapeAux c z 0 maxIterations.toNat

/-- The mathematical orbit `z, z²+c, (z²+c)²+c, ...` used to state what the
escape loop computes. -/
def orbit (c z : QComplex) : Nat → QComplex
  | 0 => z
  | n + 1 => ((orbit c z n).mul (orbit c z n)).add c

/-- Embedded from `generateJuliaTile` of the tiled server: renders a
`tileWidth × tileHeight` pixel matrix, mapping each pixel through the
escape loop and the coloring registry (interior points are painted
`color.Black`, i.e. opaque black), and wraps it in a `Tile` whose
`lastAccessed` is the current time. -/
def generateJuliaTile (ops : FloatOps) (p : JuliaParams)
    (tileX tileY tileWidth tileHeight lod : Int) (offset : Offset) (now : Nat) : Tile :=
  let image := (List.range tileHeight.toNat).map fun (py : Nat) =>
    let y : ℚ := (((tileY + (py : Int) : Int) : ℚ) - offset.y) / p.zoom
      - (p.height : ℚ) / (2 * p.zoom) + p.center.im
    (List.range tileWidth.toNat).map fun (px : Nat) =>
      let x : ℚ := (((tileX + (px : Int) : Int) : ℚ) - offset.x) / p.zoom
        - (p.width : ℚ) / (2 * p.zoom) + p.center.re
      let r := escapeIter p.c ⟨x, y⟩ p.maxIterations
      if (r.1 : Int) < p.maxIterations then
        ReturnRGBA ops p.coloring (r.1 : Int) p.maxIterations r.2
          (tileX + (px : Int)) (tileY + (py : Int))
      else ⟨0, 0, 0, 255⟩
  ⟨tileX, tileY, tileWidth, tileHeight, lod, image, now⟩

/-- The tile cache contents: the Go `map[string]*Tile` as an association
list with unique keys (list order stands for the map's iteration order). -/
abbrev CacheState : Type :=
  List (String × Tile)

/-- Map lookup (`TileCache.Get` without the timestamp refresh). -/
def mapGet : CacheState → String → Option Tile
  | [], _ => none
  | (k, t) :: rest, key => if k = key then some t else mapGet rest key

/-- Map insert-or-overwrite (`TileCache.Set`). -/
def mapSet : CacheState → String → Tile → CacheState
  | [], key, tile => [(key, tile)]
  | (k, t) :: rest, key, tile =>
    if k = key then (key, tile) :: rest else (k, t) :: mapSet rest key tile

/-- Map removal (`TileCache.Delete`). -/
def mapDelete : CacheState → String → CacheState
  | [], _ => []
  | (k, t) :: rest, key => if k = key then rest else (k, t) :: mapDelete rest key

/-- The eviction scan of `cacheTile`: fold the `for k, v := range cache`
loop with its `""` sentinel, keeping the entry with the oldest
`LastAccessed` (first seen wins ties). -/
def scanOldest : CacheState → String × Nat → String × Nat
  | [], acc => acc
  | (k, t) :: rest, acc =>
    scanOldest rest (if acc.1 = "" ∨ t.lastAccessed < acc.2 then (k, t.lastAccessed) else acc)

/-- Embedded from `cacheTile`: store the tile under its key, then, if the
cache exceeds `MaxCacheSize`, delete the entry with the oldest
`lastAccessed`. -/
def cacheTile (p : JuliaParams) (tile : Tile) (offset : Offset) (st : CacheState) : CacheState :=
  let key := getTileKey p tile.x tile.y tile.lod offset
  let st1 := mapSet st key tile
  if MaxCacheSize < st1.length then mapDelete st1 (scanOldest st1 ("", 0)).1
  else st1

/-- Embedded from `getCachedTile`: look the key up; on a hit refresh the
tile's `lastAccessed` to the current time and store it back. -/
def getCachedTile (p : JuliaParams) (x y lod : Int) (offset : Offset)
    (st : CacheState) (now : Nat) : Option Tile × CacheState :=
  let key := getTileKey p x y lod offset
  match mapGet st key with
  | none => (none, st)
  | some t =>
    let t1 := { t with lastAccessed := now }
    (some t1, mapSet st key t1)

/-- Squared Euclidean distance from a request's origin to the canvas
center, embedded from the comparison closure in `generateJuliaSet`
(`centerX, centerY := params.Width/2, params.Height/2`, Go integer
division). -/
def distSqFromCenter (p : JuliaParams) (r : TileRequest) : Int :=
  (r.x - Int.tdiv p.width 2) ^ 2 + (r.y - Int.tdiv p.height 2) ^ 2

/-- The `sort.Slice` comparison closure of `generateJuliaSet`: by `LOD`
ascending, then by squared distance from the canvas center ascending. -/
def lessTileReq (p : JuliaParams) (a b : TileRequest) : Bool :=
  if a.lod ≠ b.lod then decide (a.lod < b.lod)
  else decide (distSqFromCenter p a < distSqFromCenter p b)

/-- The dispatch order computed by `sort.Slice(requestedTiles, less)`.
`sort.Slice` guarantees exactly a permutation that is sorted with respect
to the comparison closure; the model realizes it with insertion sort on
the complementary non-strict relation. -/
def sortRequests (p : JuliaParams) (reqs : List TileRequest) : List TileRequest :=
  List.insertionSort (fun a b => lessTileReq p b a = false) reqs

/-- One per-tile task of `generateJuliaSet`: clip the tile dimensions to
the canvas, serve from cache on a hit, otherwise render, cache and emit. -/
def runTile (ops : FloatOps) (p : JuliaParams) (req : TileRequest) (offset : Offset)
    (st : CacheState) (now : Nat) : Tile × CacheState :=
  let tileWidth := min TileSize (p.width - req.x)
  let tileHeight := min TileSize (p.height - req.y)
  match getCachedTile p req.x req.y req.lod offset st now with
  | (some cachedTile, st1) => (cachedTile, st1)
  | (none, st1) =>
    let tile := generateJuliaTile ops p req.x req.y tileWidth tileHeight req.lod offset now
    (tile, cacheTile p tile offset st1)

/-- Sequentialized fan-out: run the per-tile tasks in dispatch order,
threading the shared cache and advancing the clock one tick per task.
The channel's delivery order is completion order and is nondeterministic
in the source; the model emits in dispatch order. -/
def runBatch (ops : FloatOps) (p : JuliaParams) (offset : Offset) :
    List TileRequest → CacheState → Nat → List Tile × CacheState
  | [], st, _ => ([], st)
  | req :: rest, st, now =>
    let r := runTile ops p req offset st now
    let res := runBatch ops p offset rest r.2 (now + 1)
    (r.1 :: res.1, res.2)

/-- Embedded from `generateJuliaSet` of the tiled server: sort the batch
into dispatch order, then run one task per requested tile. -/
def generateJuliaSet (ops : FloatOps) (p : JuliaParams) (reqs : List TileRequest)
    (offset : Offset) (st : CacheState) (now : Nat) : List Tile × CacheState :=
  runBatch ops p offset (sortRequests p reqs) st now

/-- Greedy digit run for the `%d` verb of `fmt.Sscanf`. -/
def scanDigits : List Char → Nat → Nat × List Char
  | [], acc => (acc, [])
  | c :: rest, acc =>
    if '0' ≤ c ∧ c ≤ '9' then scanDigits rest (10 * acc + digitVal c) else (acc, c :: rest)

/-- Leading-whitespace skipping performed by `%d`. -/
def skipSpaces : List Char → List Char
  | [] => []
  | c :: rest => if c = ' ' ∨ c = '\t' ∨ c = '\n' then skipSpaces rest else c :: rest

/-- Nonempty digit run, or failure. -/
def scanUnsigned (cs : List Char) : Option (Nat × List Char) :=
  match cs with
  | c :: _ => if '0' ≤ c ∧ c ≤ '9' then some (scanDigits cs 0) else none
  | [] => none

/-- The `%d` verb: skip whitespace, optional sign, at least one digit. -/
def scanSignedInt (cs : List Char) : Option (Int × List Char) :=
  match skipSpaces cs with
  | '-' :: rest => (scanUnsigned rest).map fun r => (-(r.1 : Int), r.2)
  | '+' :: rest => (scanUnsigned rest).map fun r => ((r.1 : Int), r.2)
  | cs1 => (scanUnsigned cs1).map fun r => ((r.1 : Int), r.2)

/-- Embedded from the `fmt.Sscanf(tile, "%d,%d", &x, &y)` call of the
session handler: the error is discarded, so any coordinate the scan does
not reach keeps its zero value. -/
def sscanfTwoInts (s : String) : Int × Int :=
  match scanSignedInt s.data with
  | none => (0, 0)
  | some (x, rest) =>
    match rest with
    | ',' :: rest2 =>
      match scanSignedInt rest2 with
      | none => (x, 0)
      | some (y, _) => (x, y)
    | _ => (x, 0)

/-- One outbound tile message of the session handler
(`{type: "tile", x, y, width, height, lod, image}`); the base64 PNG
payload is identified with the pixel matrix it encodes. -/
structure TileMessage where
  x : Int
  y : Int
  width : Int
  height : Int
  lod : Int
  image : List (List RGBA)
deriving DecidableEq

/-- One decoded inbound batch message
(`{params: JuliaParams, tiles: []string, offset: Offset}`). -/
structure InboundRequest where
  params : JuliaParams
  tiles : List String
  offset : Offset

/-- The request-construction loop of the session handler: one
`TileRequest` per entry of the `tiles` list, carrying the batch's
(unvalidated) `params.LOD`. -/
def buildRequests (params : JuliaParams) (tiles : List String) : List TileRequest :=
  tiles.map fun t =>
    let r := sscanfTwoInts t
    ⟨r.1, r.2, params.lod⟩

/-- The `// Validate params` clamp of the session handler. -/
def clampParams (params : JuliaParams) : JuliaParams :=
  if params.lod < 1 then { params with lod := 1 } else params

/-- One loop iteration of the tiled server's `wsHandler`, embedded in
source order: build the tile requests from the raw `params.LOD`, then
clamp `params.LOD`, then run the batch and emit one message per tile.
Transport writes are assumed to succeed (a write failure only truncates
the message list and closes the session). -/
def wsHandlerBatch (ops : FloatOps) (req : InboundRequest) (st : CacheState)
    (now : Nat) : List TileMessage × CacheState :=
  let params := req.params
  let requestedTiles := buildRequests params req.tiles
  let params1 := clampParams params
  let r := generateJuliaSet ops params1 requestedTiles req.offset st now
  (r.1.map fun t => ⟨t.x, t.y, t.width, t.height, t.lod, t.image⟩, r.2)

/-- A tile of the earlier tiled design (part_000): fixed 256×256 tiles,
`Zoom` rather than `LOD`, and an unencoded in-memory image. -/
structure P0Tile where
  x : Int
  y : Int
  zoom : ℚ
  image : List (List RGBA)
  lastUsed : Nat
deriving DecidableEq

/-- An outbound `TileMessage` of the earlier design, generic over the
encoded payload type produced by the external codec. -/
structure P0TileMessage (β : Type) where
  x : Int
  y : Int
  zoom : ℚ
  data : β
deriving DecidableEq

/-- Embedded from `encodeTile` of part_000: run the external (fallible)
codec on the tile's image; on failure report the error, otherwise build
the outbound message from the tile's fields. -/
def encodeTile {β : Type} (enc : List (List RGBA) → Option β) (t : P0Tile) :
    Option (P0TileMessage β) :=
  (enc t.image).map fun d => ⟨t.x, t.y, t.zoom, d⟩

/-- The message-emission loop of part_000's `wsHandler`: for each tile of
the batch, `encodeTile`; on error `continue` (drop the tile), otherwise
emit the message.  Transport writes are assumed to succeed. -/
def streamTiles {β : Type} (enc : List (List RGBA) → Option β) :
    List P0Tile → List (P0TileMessage β)
  | [] => []
  | t :: rest =>
    match encodeTile enc t with
    | none => streamTiles enc rest
    | some m => m :: streamTiles enc rest

/-- A concrete, computable instance of the external float library, used by
witnesses and counterexamples (any instance suffices for them). -/
def opsDefault : FloatOps where
  sin := fun q => q
  cos := fun q => q
  log := fun _ => 0
  exp := fun q => if 0 ≤ q then 1 else 0
  pow := fun _ _ => 0
  sqrt := fun q => q
  atan2 := fun _ _ => 0
  pi := 0
  hsv := fun h _ _ => (u8 h, 0, 0)

theorem escapeAux_spec (c z₀ : QComplex) : ∀ (fuel i : Nat),
    i ≤ (escapeAux c (orbit c z₀ i) i fuel).1 ∧
    (escapeAux c (orbit c z₀ i) i fuel).1 ≤ i + fuel ∧
    (escapeAux c (orbit c z₀ i) i fuel).2 = orbit c z₀ (escapeAux c (orbit c z₀ i) i fuel).1 ∧
    (∀ k, i ≤ k → k < (escapeAux c (orbit c z₀ i) i fuel).1 → (orbit c z₀ k).normSq ≤ 4) ∧
    ((escapeAux c (orbit c z₀ i) i fuel).1 < i + fuel →
      4 < (orbit c z₀ (escapeAux c (orbit c z₀ i) i fuel).1).normSq) := by
  intro fuel
  induction fuel with
  | zero =>
    intro i
    exact ⟨le_refl _, le_refl _, rfl, fun k hk hk' => absurd (lt_of_le_of_lt hk hk') (lt_irrefl _),
      fun h => absurd h (lt_irrefl _)⟩
  | succ fuel ih =>
    intro i
    by_cases hesc : 4 < (orbit c z₀ i).normSq
    · have hval : escapeAux c (orbit c z₀ i) i (fuel + 1) = (i, orbit c z₀ i) := by
        simp [escapeAux, hesc]
      rw [hval]
      exact ⟨le_refl _, by omega, rfl,
        fun k hk hk' => absurd (lt_of_le_of_lt hk hk') (lt_irrefl _), fun _ => hesc⟩
    · have hstep : escapeAux c (orbit c z₀ i) i (fuel + 1)
          = escapeAux c (orbit c z₀ (i + 1)) (i + 1) fuel := by
        simp only [escapeAux, if_neg hesc]
        rfl
      rw [hstep]
      obtain ⟨h₁, h₂, h₃, h₄, h₅⟩ := ih (i + 1)
      refine ⟨by omega, by omega, h₃, ?_, fun h => h₅ (by omega)⟩
      intro k hk hk'
      rcases Nat.eq_or_lt_of_le hk with rfl | hk2
      · exact le_of_not_lt hesc
      · exact h₄ k hk2 hk'


theorem escapeIter_spec (c z : QComplex) (m : Int) :
    (escapeIter c z m).2 = orbit c z (escapeIter c z m).1 ∧
    (escapeIter c z m).1 ≤ m.toNat ∧
    (∀ k, k < (escapeIter c z m).1 → (orbit c z k).normSq ≤ 4) ∧
    ((escapeIter c z m).1 < m.toNat → 4 < (orbit c z (escapeIter c z m).1).normSq) := by
  have h := escapeAux_spec c z m.toNat 0
  simp only [orbit] at h
  obtain ⟨h₁, h₂, h₃, h₄, h₅⟩ := h
  simp only [escapeIter]
  exact ⟨h₃, by omega, fun k hk => h₄ k (Nat.zero_le _) hk, fun h' => h₅ (by omega)⟩

theorem escapeIter_interior_iff (c z : QComplex) (m : Int) :
    ((escapeIter c z m).1 = m.toNat ↔ ∀ k, k < m.toNat → (orbit c z k).normSq ≤ 4) ∧
    (¬(((escapeIter c z m).1 : Int) < m) ↔ ∀ k, k < m.toNat → (orbit c z k).normSq ≤ 4) := by
  obtain ⟨h₁, h₂, h₃, h₄⟩ := escapeIter_spec c z m
  have hiff : (escapeIter c z m).1 = m.toNat ↔
      ∀ k, k < m.toNat → (orbit c z k).normSq ≤ 4 := by
    constructor
    · intro he k hk
      exact h₃ k (he ▸ hk)
    · intro hall
      by_contra hne
      have hlt : (escapeIter c z m).1 < m.toNat := lt_of_le_of_ne h₂ hne
      exact absurd (hall _ hlt) (not_le.2 (h₄ hlt))
  refine ⟨hiff, Iff.trans ?_ hiff⟩
  constructor
  · intro hnl
    omega
  · intro he
    omega

/-- C5 (functional_correctness).  The per-pixel escape loop starts at the
pixel's point, iterates `z = z*z + c` (computing the orbit) while the
magnitude stays within the escape radius 2 and fewer than `maxIterations`
steps have run, and the interior classification
`iterations == maxIterations` — the branch of `generateJuliaTile` painting
the pixel opaque black — holds exactly when the orbit stays within
magnitude 2 (`normSq ≤ 4`) for all `maxIterations` steps; in particular for
`c = -0.8 + 0.156i`, `maxIterations = 100` and `z₀ = 0` the point is
interior iff its orbit stays within magnitude 2 for 100 steps. -/
theorem escape_classification (c z : QComplex) (m : Int) :
    ((escapeIter c z m).2 = orbit c z (escapeIter c z m).1 ∧
     (escapeIter c z m).1 ≤ m.toNat ∧
     (∀ k, k < (escapeIter c z m).1 → (orbit c z k).normSq ≤ 4) ∧
     ((escapeIter c z m).1 < m.toNat → 4 < (orbit c z (escapeIter c z m).1).normSq) ∧
     ((escapeIter c z m).1 = m.toNat ↔ ∀ k, k < m.toNat → (orbit c z k).normSq ≤ 4) ∧
     (¬(((escapeIter c z m).1 : Int) < m) ↔ ∀ k, k < m.toNat → (orbit c z k).normSq ≤ 4)) ∧
    (¬(((escapeIter ⟨-(8/10), 156/1000⟩ ⟨0, 0⟩ 100).1 : Int) < 100) ↔
      ∀ k, k < 100 → (orbit (⟨-(8/10), 156/1000⟩ : QComplex) ⟨0, 0⟩ k).normSq ≤ 4) := by
  refine ⟨⟨(escapeIter_spec c z m).1, (escapeIter_spec c z m).2.1,
    (escapeIter_spec c z m).2.2.1, (escapeIter_spec c z m).2.2.2,
    (escapeIter_interior_iff c z m).1, (escapeIter_interior_iff c z m).2⟩, ?_⟩
  exact (escapeIter_interior_iff ⟨-(8/10), 156/1000⟩ ⟨0, 0⟩ 100).2

/-- Concrete render configuration for the boundary-clipping instance of
the spec: a 300×200 canvas. -/
def c4Params : JuliaParams :=
  ⟨⟨0, 0⟩, ⟨0, 0⟩, 1, 1, 100, 300, 200, 1⟩

/-- C4 (functional_correctness).  A scheduled tile task clips the tile to
the canvas: the generated tile's width is `min(TileSize, width - tileX)`
and its height is `min(TileSize, height - tileY)`, and those dimensions
are carried by the emitted tile (whose `Width`/`Height` fields are exactly
the clipped dimensions passed to `generateJuliaTile`); in particular at a
300×200 canvas with origin (256,128) the tile is 44×72. -/
theorem tile_dimension_clipping (ops : FloatOps) (p : JuliaParams) (req : TileRequest)
    (off : Offset) (now : Nat) :
    ((runTile ops p req off ([] : CacheState) now).1).width = min TileSize (p.width - req.x) ∧
    ((runTile ops p req off ([] : CacheState) now).1).height = min TileSize (p.height - req.y) ∧
    (∀ x y w h lod, (generateJuliaTile ops p x y w h lod off now).width = w ∧
      (generateJuliaTile ops p x y w h lod off now).height = h) ∧
    ((runTile ops c4Params ⟨256, 128, 1⟩ off ([] : CacheState) now).1).width = 44 ∧
    ((runTile ops c4Params ⟨256, 128, 1⟩ off ([] : CacheState) now).1).height = 72 := by
  refine ⟨rfl, rfl, fun x y w h lod => ⟨rfl, rfl⟩, ?_, ?_⟩
  · show min TileSize (c4Params.width - 256) = 44
    decide
  · show min TileSize (c4Params.height - 128) = 72
    decide

theorem lessTileReq_true_iff (p : JuliaParams) (a b : TileRequest) :
    lessTileReq p a b = true ↔
      (a.lod < b.lod ∨ (a.lod = b.lod ∧ distSqFromCenter p a < distSqFromCenter p b)) := by
  unfold lessTileReq
  by_cases h : a.lod = b.lod
  · simp [h]
  · simp [h]

theorem lessTileReq_false_iff (p : JuliaParams) (a b : TileRequest) :
    (lessTileReq p a b = false) ↔
      ¬(a.lod < b.lod ∨ (a.lod = b.lod ∧ distSqFromCenter p a < distSqFromCenter p b)) := by
  rw [← lessTileReq_true_iff p a b]
  cases lessTileReq p a b <;> simp

/-- C6 (functional_correctness).  The dispatch order computed once per
batch is a permutation of the requests sorted by `LOD` ascending and,
within equal `LOD`, by squared Euclidean distance from the tile origin to
the canvas center ascending; hence every lower-`LOD` request precedes
every higher-`LOD` one and, at equal `LOD`, nearer-to-center precedes
farther. -/
theorem priority_ordering (p : JuliaParams) (reqs : List TileRequest) :
    List.Perm (sortRequests p reqs) reqs ∧
    (sortRequests p reqs).Pairwise
      (fun a b => a.lod < b.lod ∨
        (a.lod = b.lod ∧ distSqFromCenter p a ≤ distSqFromCenter p b)) := by
  constructor
  · exact List.perm_insertionSort _ reqs
  · haveI htot : IsTotal TileRequest (fun a b => lessTileReq p b a = false) := by
      constructor
      intro a b
      dsimp only
      rw [lessTileReq_false_iff, lessTileReq_false_iff]
      omega
    haveI htrans : IsTrans TileRequest (fun a b => lessTileReq p b a = false) := by
      constructor
      intro a b c hab hbc
      dsimp only at hab hbc ⊢
      rw [lessTileReq_false_iff] at hab hbc ⊢
      omega
    have hs := List.sorted_insertionSort (fun a b => lessTileReq p b a = false) reqs
    refine List.Pairwise.imp ?_ hs
    intro a b hab
    rw [lessTileReq_false_iff] at hab
    by_cases h : a.lod = b.lod
    · exact Or.inr ⟨h, by omega⟩
    · exact Or.inl (by omega)

/-- C7 (error_handling).  For any coloring id outside the registered set
1..12, `ReturnRGBA` (a total function) takes the `default` branch and
returns exactly what id 1 (`SmoothColorHSV`, the documented default)
returns, for every argument tuple and every float library. -/
theorem unknown_coloring_defaults (ops : FloatOps) (coloring i maxIterations : Int)
    (z : QComplex) (x y : Int) (h : coloring < 1 ∨ 12 < coloring) :
    ReturnRGBA ops coloring i maxIterations z x y
      = ReturnRGBA ops 1 i maxIterations z x y := by
  unfold ReturnRGBA
  rw [if_neg (by omega : ¬coloring = 1), if_neg (by omega : ¬coloring = 2),
    if_neg (by omega : ¬coloring = 3), if_neg (by omega : ¬coloring = 4),
    if_neg (by omega : ¬coloring = 5), if_neg (by omega : ¬coloring = 6),
    if_neg (by omega : ¬coloring = 7), if_neg (by omega : ¬coloring = 8),
    if_neg (by omega : ¬coloring = 9), if_neg (by omega : ¬coloring = 10),
    if_neg (by omega : ¬coloring = 11), if_neg (by omega : ¬coloring = 12),
    if_pos rfl]

theorem unknown_coloring_defaults_witness :
    ((13 : Int) < 1 ∨ (12 : Int) < 13) ∧
    ReturnRGBA opsDefault 13 1 2 ⟨0, 0⟩ 0 0 = ReturnRGBA opsDefault 1 1 2 ⟨0, 0⟩ 0 0 :=
  ⟨Or.inr (by decide),
    unknown_coloring_defaults opsDefault 13 1 2 ⟨0, 0⟩ 0 0 (Or.inr (by decide))⟩

/-- C9 (security_hyperproperties).  The `lod` argument does not influence
rendered pixels: two `generateJuliaTile` calls differing only in `lod`
agree on the image payload and on the `X`, `Y`, `Width`, `Height` fields,
differ exactly in the tile's `LOD` field, and (for distinct lods) are
stored under distinct cache keys. -/
theorem lod_noninterference (ops : FloatOps) (p : JuliaParams)
    (tx ty w h lod₁ lod₂ : Int) (off : Offset) (now : Nat) (hne : lod₁ ≠ lod₂) :
    (generateJuliaTile ops p tx ty w h lod₁ off now).image
      = (generateJuliaTile ops p tx ty w h lod₂ off now).image ∧
    (generateJuliaTile ops p tx ty w h lod₁ off now).x
      = (generateJuliaTile ops p tx ty w h lod₂ off now).x ∧
    (generateJuliaTile ops p tx ty w h lod₁ off now).y
      = (generateJuliaTile ops p tx ty w h lod₂ off now).y ∧
    (generateJuliaTile ops p tx ty w h lod₁ off now).width
      = (generateJuliaTile ops p tx ty w h lod₂ off now).width ∧
    (generateJuliaTile ops p tx ty w h lod₁ off now).height
      = (generateJuliaTile ops p tx ty w h lod₂ off now).height ∧
    (generateJuliaTile ops p tx ty w h lod₁ off now).lod = lod₁ ∧
    (generateJuliaTile ops p tx ty w h lod₂ off now).lod = lod₂ ∧
    getTileKey p tx ty lod₁ off ≠ getTileKey p tx ty lod₂ off := by
  refine ⟨rfl, rfl, rfl, rfl, rfl, rfl, rfl, ?_⟩
  intro hkey
  obtain ⟨-, -, -, -, -, -, -, -, -, -, -, he, -, -⟩ := getTileKey_fields hkey
  exact hne he

/-- Small render configuration used by several witnesses. -/
def pSmall : JuliaParams :=
  ⟨⟨0, 0⟩, ⟨0, 0⟩, 1, 1, 0, 1, 1, 1⟩

theorem lod_noninterference_witness :
    ((1 : Int) ≠ 2) ∧
    ((generateJuliaTile opsDefault pSmall 0 0 1 1 1 ⟨0, 0⟩ 0).image
      = (generateJuliaTile opsDefault pSmall 0 0 1 1 2 ⟨0, 0⟩ 0).image ∧
    (generateJuliaTile opsDefault pSmall 0 0 1 1 1 ⟨0, 0⟩ 0).x
      = (generateJuliaTile opsDefault pSmall 0 0 1 1 2 ⟨0, 0⟩ 0).x ∧
    (generateJuliaTile opsDefault pSmall 0 0 1 1 1 ⟨0, 0⟩ 0).y
      = (generateJuliaTile opsDefault pSmall 0 0 1 1 2 ⟨0, 0⟩ 0).y ∧
    (generateJuliaTile opsDefault pSmall 0 0 1 1 1 ⟨0, 0⟩ 0).width
      = (generateJuliaTile opsDefault pSmall 0 0 1 1 2 ⟨0, 0⟩ 0).width ∧
    (generateJuliaTile opsDefault pSmall 0 0 1 1 1 ⟨0, 0⟩ 0).height
      = (generateJuliaTile opsDefault pSmall 0 0 1 1 2 ⟨0, 0⟩ 0).height ∧
    (generateJuliaTile opsDefault pSmall 0 0 1 1 1 ⟨0, 0⟩ 0).lod = 1 ∧
    (generateJuliaTile opsDefault pSmall 0 0 1 1 2 ⟨0, 0⟩ 0).lod = 2 ∧
    getTileKey pSmall 0 0 1 ⟨0, 0⟩ ≠ getTileKey pSmall 0 0 2 ⟨0, 0⟩) :=
  ⟨by decide, lod_noninterference opsDefault pSmall 0 0 1 1 1 2 ⟨0, 0⟩ 0 (by decide)⟩

/-- First half of the key-collision pair: `c = 2 + 0i` on a 1×1 canvas,
`maxIterations = 3`, coloring 1, centered so the single pixel maps to the
origin of the fractal plane. -/
def cexP1 : JuliaParams :=
  ⟨⟨2, 0⟩, ⟨1/2, 1/2⟩, 1, 1, 3, 1, 1, 1⟩

/-- Second half of the pair: identical except `c.Real = 2.0000001`, which
`%f` also formats as `2.000000`. -/
def cexP2 : JuliaParams :=
  ⟨⟨20000001/10000000, 0⟩, ⟨1/2, 1/2⟩, 1, 1, 3, 1, 1, 1⟩

/-- C1, counterexample.  Two render configurations that differ only in
`c.Real` beyond the sixth decimal produce the same `getTileKey` string
(the `%f` verb rounds to six decimals) yet render different pixel
payloads for the same requested tile: at the shared key the orbits escape
after different iteration counts, so the colored pixels differ. -/
theorem key_collision_distinct_render :
    getTileKey cexP1 0 0 1 ⟨0, 0⟩ = getTileKey cexP2 0 0 1 ⟨0, 0⟩ ∧
    (runTile opsDefault cexP1 ⟨0, 0, 1⟩ ⟨0, 0⟩ ([] : CacheState) 0).1.image
      ≠ (runTile opsDefault cexP2 ⟨0, 0, 1⟩ ⟨0, 0⟩ ([] : CacheState) 0).1.image := by
  constructor
  · decide
  · decide

/-- C1, amended (algebraic_relational).  Key equality alone cannot force
byte-identical tiles (see the counterexample: `%f` truncates the float
fields to six decimals); it does force equality of every integer field
(`maxIterations`, `width`, `height`, `coloring`, tile `x`, `y`, `lod`),
and together with exact equality of the floating-point inputs (`c`,
`center`, `zoom`, `offset`) it makes the rendered tiles — with dimensions
clipped exactly as the scheduler derives them — fully identical. -/
theorem equal_key_exact_floats_render_eq (ops : FloatOps) (p₁ p₂ : JuliaParams)
    (x₁ y₁ l₁ x₂ y₂ l₂ : Int) (o₁ o₂ : Offset) (now : Nat)
    (hkey : getTileKey p₁ x₁ y₁ l₁ o₁ = getTileKey p₂ x₂ y₂ l₂ o₂)
    (hc : p₁.c = p₂.c) (hcen : p₁.center = p₂.center) (hz : p₁.zoom = p₂.zoom)
    (ho : o₁ = o₂) :
    generateJuliaTile ops p₁ x₁ y₁ (min TileSize (p₁.width - x₁))
        (min TileSize (p₁.height - y₁)) l₁ o₁ now
      = generateJuliaTile ops p₂ x₂ y₂ (min TileSize (p₂.width - x₂))
        (min TileSize (p₂.height - y₂)) l₂ o₂ now := by
  obtain ⟨-, -, -, -, -, hmi, hw, hh, hcol, hx, hy, hl, -, -⟩ := getTileKey_fields hkey
  subst ho hx hy hl
  cases p₁ with
  | mk c₁ cen₁ z₁ col₁ mi₁ w₁ h₁ lo₁ =>
    cases p₂ with
    | mk c₂ cen₂ z₂ col₂ mi₂ w₂ h₂ lo₂ =>
      simp only at hc hcen hz hmi hw hh hcol
      subst hc hcen hz hmi hw hh hcol
      rfl

theorem equal_key_exact_floats_render_eq_witness :
    (getTileKey cexP1 0 0 1 ⟨0, 0⟩ = getTileKey cexP1 0 0 1 ⟨0, 0⟩) ∧
    (cexP1.c = cexP1.c) ∧ (cexP1.center = cexP1.center) ∧ (cexP1.zoom = cexP1.zoom) ∧
    ((⟨0, 0⟩ : Offset) = ⟨0, 0⟩) ∧
    generateJuliaTile opsDefault cexP1 0 0 (min TileSize (cexP1.width - 0))
        (min TileSize (cexP1.height - 0)) 1 ⟨0, 0⟩ 0
      = generateJuliaTile opsDefault cexP1 0 0 (min TileSize (cexP1.width - 0))
        (min TileSize (cexP1.height - 0)) 1 ⟨0, 0⟩ 0 :=
  ⟨rfl, rfl, rfl, rfl, rfl,
    equal_key_exact_floats_render_eq opsDefault cexP1 cexP1 0 0 1 0 0 1 ⟨0, 0⟩ ⟨0, 0⟩ 0
      rfl rfl rfl rfl rfl⟩

/-- The key a `cacheTile` call computes for its inputs
(`getTileKey(params, tile.X, tile.Y, tile.LOD, offset)`). -/
def insKey (ins : JuliaParams × Tile × Offset) : String :=
  getTileKey ins.1 ins.2.1.x ins.2.1.y ins.2.1.lod ins.2.2

/-- The cache entry a `cacheTile` call stores. -/
def insEntry (ins : JuliaParams × Tile × Offset) : String × Tile :=
  (insKey ins, ins.2.1)

/-- A sequence of sequential `cacheTile` calls, threading the cache. -/
def cacheInsertSeq (inputs : List (JuliaParams × Tile × Offset)) (st : CacheState) :
    CacheState :=
  inputs.foldl (fun s ins => cacheTile ins.1 ins.2.1 ins.2.2 s) st

/-- The last `MaxCacheSize` insertions, as cache entries in insertion
order (what LRU retention must leave behind). -/
def lruTail (inputs : List (JuliaParams × Tile × Offset)) : CacheState :=
  (inputs.drop (inputs.length - MaxCacheSize)).map insEntry

theorem insKey_ne_empty (ins : JuliaParams × Tile × Offset) : insKey ins ≠ "" :=
  getTileKey_ne_empty _ _ _ _ _

theorem mapSet_append {st : CacheState} {k : String} {t : Tile}
    (h : ∀ e ∈ st, e.1 ≠ k) : mapSet st k t = st ++ [(k, t)] := by
  induction st with
  | nil => rfl
  | cons e rest ih =>
    obtain ⟨k', t'⟩ := e
    have hne : k' ≠ k := h _ (List.mem_cons_self _ _)
    simp only [mapSet, if_neg hne, List.cons_append]
    rw [ih (fun e he => h e (List.mem_cons_of_mem _ he))]

theorem scanOldest_keep : ∀ (entries : CacheState) (acc : String × Nat),
    acc.1 ≠ "" → (∀ e ∈ entries, acc.2 < e.2.lastAccessed) →
    scanOldest entries acc = acc := by
  intro entries
  induction entries with
  | nil =>
    intro acc _ _
    rfl
  | cons e rest ih =>
    intro acc hne hlt
    obtain ⟨k, t⟩ := e
    have hcond : ¬(acc.1 = "" ∨ t.lastAccessed < acc.2) := by
      push_neg
      exact ⟨hne, le_of_lt (hlt _ (List.mem_cons_self _ _))⟩
    simp only [scanOldest, if_neg hcond]
    exact ih acc hne fun e he => hlt e (List.mem_cons_of_mem _ he)

theorem scanOldest_head (k : String) (t : Tile) (rest : CacheState)
    (hk : k ≠ "") (hlt : ∀ e ∈ rest, t.lastAccessed < e.2.lastAccessed) :
    scanOldest ((k, t) :: rest) ("", 0) = (k, t.lastAccessed) := by
  have hcond : ((("", 0) : String × Nat).1 = "" ∨
      t.lastAccessed < ((("", 0) : String × Nat)).2) := Or.inl rfl
  simp only [scanOldest, if_pos hcond]
  exact scanOldest_keep rest (k, t.lastAccessed) hk hlt

theorem mapDelete_head (k : String) (t : Tile) (rest : CacheState) :
    mapDelete ((k, t) :: rest) k = rest := by
  simp [mapDelete]

theorem cacheTile_step (done : List (JuliaParams × Tile × Offset))
    (ins : JuliaParams × Tile × Offset)
    (hfresh : ∀ j ∈ done, insKey j ≠ insKey ins)
    (htime : ∀ j ∈ done, j.2.1.lastAccessed < ins.2.1.lastAccessed)
    (hsorted : (done.map fun j => j.2.1.lastAccessed).Pairwise (· < ·)) :
    cacheTile ins.1 ins.2.1 ins.2.2 (lruTail done) = lruTail (done ++ [ins]) := by
  have hmem : ∀ e ∈ lruTail done, ∃ j ∈ done, e = insEntry j := by
    intro e he
    obtain ⟨j, hj, rfl⟩ := List.mem_map.1 he
    exact ⟨j, List.mem_of_mem_drop hj, rfl⟩
  have hset : mapSet (lruTail done) (insKey ins) ins.2.1
      = lruTail done ++ [(insKey ins, ins.2.1)] := by
    apply mapSet_append
    intro e he
    obtain ⟨j, hj, rfl⟩ := hmem e he
    exact hfresh j hj
  have hlen_tail : (lruTail done).length = done.length - (done.length - MaxCacheSize) := by
    simp [lruTail]
  simp only [cacheTile]
  rw [show getTileKey ins.1 ins.2.1.x ins.2.1.y ins.2.1.lod ins.2.2 = insKey ins from rfl,
    hset]
  by_cases hsmall : done.length < MaxCacheSize
  · have hcond : ¬(MaxCacheSize < (lruTail done ++ [(insKey ins, ins.2.1)]).length) := by
      rw [List.length_append, hlen_tail]
      simp
      omega
    rw [if_neg hcond]
    have hd0 : done.length - MaxCacheSize = 0 := by omega
    have hd1 : (done ++ [ins]).length - MaxCacheSize = 0 := by
      rw [List.length_append]
      simp
      omega
    unfold lruTail
    rw [hd0, hd1, List.drop_zero, List.drop_zero, List.map_append]
    rfl
  · have hbig : MaxCacheSize ≤ done.length := by omega
    have hlen1000 : (done.drop (done.length - MaxCacheSize)).length = MaxCacheSize := by
      rw [List.length_drop]
      omega
    rcases hdrop : done.drop (done.length - MaxCacheSize) with _ | ⟨j0, rest⟩
    · rw [hdrop] at hlen1000
      simp [MaxCacheSize] at hlen1000
    · have htail : lruTail done = insEntry j0 :: rest.map insEntry := by
        unfold lruTail
        rw [hdrop, List.map_cons]
      have hj0_done : j0 ∈ done :=
        List.mem_of_mem_drop (hdrop ▸ List.mem_cons_self j0 rest)
      have hcond : MaxCacheSize <
          (lruTail done ++ [(insKey ins, ins.2.1)]).length := by
        rw [List.length_append, hlen_tail]
        simp
        omega
      rw [if_pos hcond, htail]
      have hrest_times : ∀ e ∈ rest.map insEntry ++ [(insKey ins, ins.2.1)],
          j0.2.1.lastAccessed < e.2.lastAccessed := by
        intro e he
        rcases List.mem_append.1 he with he' | he'
        · obtain ⟨j, hj, rfl⟩ := List.mem_map.1 he'
          have hsub : List.Sublist
              ((done.drop (done.length - MaxCacheSize)).map fun j => j.2.1.lastAccessed)
              (done.map fun j => j.2.1.lastAccessed) :=
            (List.drop_sublist _ _).map _
          have hpw := hsorted.sublist hsub
          rw [hdrop, List.map_cons, List.pairwise_cons] at hpw
          exact hpw.1 _ (List.mem_map_of_mem _ hj)
        · simp only [List.mem_singleton] at he'
          subst he'
          exact htime j0 hj0_done
      have hscan : scanOldest ((insKey j0, j0.2.1)
          :: (rest.map insEntry ++ [(insKey ins, ins.2.1)])) ("", 0)
          = (insKey j0, j0.2.1.lastAccessed) :=
        scanOldest_head _ _ _ (insKey_ne_empty j0) hrest_times
      rw [List.cons_append]
      rw [show insEntry j0 = (insKey j0, j0.2.1) from rfl]
      rw [hscan, mapDelete_head]
      unfold lruTail
      have hMpos : 0 < MaxCacheSize := by decide
      have hlapp : (done ++ [ins]).length = done.length + 1 := by simp
      have harith : (done ++ [ins]).length - MaxCacheSize
          = (done.length - MaxCacheSize) + 1 := by omega
      rw [harith, List.drop_append_of_le_length (by omega),
        ← List.drop_drop, hdrop]
      simp only [List.drop_succ_cons, List.drop_zero, List.map_append, List.map_cons,
        List.map_nil]
      rfl

theorem cacheInsertSeq_eq_lruTail (inputs : List (JuliaParams × Tile × Offset))
    (hkeys : (inputs.map insKey).Nodup)
    (htimes : (inputs.map fun j => j.2.1.lastAccessed).Pairwise (· < ·)) :
    cacheInsertSeq inputs [] = lruTail inputs := by
  induction inputs using List.reverseRecOn with
  | nil => rfl
  | append_singleton done ins ih =>
    rw [List.map_append, List.nodup_append] at hkeys
    rw [List.map_append, List.pairwise_append] at htimes
    obtain ⟨hkdone, -, hkdisj⟩ := hkeys
    obtain ⟨htdone, -, htcross⟩ := htimes
    have hstep := cacheTile_step done ins
      (fun j hj heq =>
        absurd (by simp [heq] : insKey j ∈ List.map insKey [ins])
          (hkdisj (List.mem_map_of_mem _ hj)))
      (fun j hj => htcross _ (List.mem_map_of_mem _ hj) _ (by simp))
      htdone
    have hfold : cacheInsertSeq (done ++ [ins]) []
        = cacheTile ins.1 ins.2.1 ins.2.2 (cacheInsertSeq done []) := by
      simp [cacheInsertSeq, List.foldl_append]
    rw [hfold, ih hkdone htdone, hstep]

/-- C2 (invariants).  Starting from an empty cache, a sequence of
`MaxCacheSize + k` sequential `cacheTile` insertions with pairwise
distinct keys and strictly increasing `lastAccessed` timestamps keeps the
cache at `≤ MaxCacheSize` entries after every insertion, and after the
last one the cache holds exactly `MaxCacheSize` entries, namely the
entries of the `MaxCacheSize` most recently inserted (hence most recently
accessed) inputs, in insertion order. -/
theorem cache_bound_lru (inputs : List (JuliaParams × Tile × Offset))
    (hlen : MaxCacheSize < inputs.length)
    (hkeys : (inputs.map insKey).Nodup)
    (htimes : (inputs.map fun j => j.2.1.lastAccessed).Pairwise (· < ·)) :
    (∀ n, (cacheInsertSeq (inputs.take n) []).length ≤ MaxCacheSize) ∧
    (cacheInsertSeq inputs []).length = MaxCacheSize ∧
    cacheInsertSeq inputs [] = lruTail inputs := by
  have hmain := cacheInsertSeq_eq_lruTail inputs hkeys htimes
  refine ⟨?_, ?_, hmain⟩
  · intro n
    have hsubm : List.Sublist ((inputs.take n).map insKey) (inputs.map insKey) :=
      (List.take_sublist _ _).map _
    have hsubt : List.Sublist ((inputs.take n).map fun j => j.2.1.lastAccessed)
        (inputs.map fun j => j.2.1.lastAccessed) :=
      (List.take_sublist _ _).map _
    rw [cacheInsertSeq_eq_lruTail _ (hkeys.sublist hsubm) (htimes.sublist hsubt)]
    unfold lruTail
    rw [List.length_map, List.length_drop]
    omega
  · rw [hmain]
    unfold lruTail
    rw [List.length_map, List.length_drop]
    omega

/-- One input of the cache-bound witness: distinct tile origins give
distinct keys, and the timestamp equals the index. -/
def c2Input (n : Nat) : JuliaParams × Tile × Offset :=
  (pSmall, ⟨(n : Int), 0, 1, 1, 1, [], n⟩, ⟨0, 0⟩)

/-- `MaxCacheSize + 1` distinct insertions for the cache-bound witness. -/
def c2Inputs : List (JuliaParams × Tile × Offset) :=
  (List.range (MaxCacheSize + 1)).map c2Input

theorem cache_bound_lru_witness :
    (MaxCacheSize < c2Inputs.length) ∧
    ((c2Inputs.map insKey).Nodup) ∧
    ((c2Inputs.map fun j => j.2.1.lastAccessed).Pairwise (· < ·)) ∧
    ((∀ n, (cacheInsertSeq (c2Inputs.take n) []).length ≤ MaxCacheSize) ∧
     (cacheInsertSeq c2Inputs []).length = MaxCacheSize ∧
     cacheInsertSeq c2Inputs [] = lruTail c2Inputs) := by
  have h1 : MaxCacheSize < c2Inputs.length := by
    rw [c2Inputs, List.length_map, List.length_range]
    omega
  have h2 : (c2Inputs.map insKey).Nodup := by
    rw [c2Inputs, List.map_map]
    refine List.Nodup.map ?_ (List.nodup_range _)
    intro a b hab
    have hab' : getTileKey pSmall (a : Int) 0 1 ⟨0, 0⟩
        = getTileKey pSmall (b : Int) 0 1 ⟨0, 0⟩ := hab
    have hfields := getTileKey_fields hab'
    obtain ⟨-, -, -, -, -, -, -, -, -, hx, -, -, -, -⟩ := hfields
    have hx' : (a : Int) = (b : Int) := hx
    omega
  have h3 : (c2Inputs.map fun j => j.2.1.lastAccessed).Pairwise (· < ·) := by
    rw [c2Inputs, List.map_map]
    have hid : ((fun j => j.2.1.lastAccessed) ∘ c2Input) = fun n => n := rfl
    rw [hid]
    simpa using List.pairwise_lt_range (MaxCacheSize + 1)
  exact ⟨h1, h2, h3, cache_bound_lru c2Inputs h1 h2 h3⟩

/-- The failing inbound batch for the `lod` clamp: `params.LOD = 0` with a
single requested tile `"0,0"` on a 1×1 canvas. -/
def c3Request : InboundRequest :=
  ⟨⟨⟨0, 0⟩, ⟨0, 0⟩, 1, 1, 0, 1, 1, 0⟩, ["0,0"], ⟨0, 0⟩⟩

/-- C3 (functional_correctness), evaluating the code at the failing input.
The session handler builds the batch's `TileRequest`s from `params.LOD`
BEFORE the `// Validate params` clamp runs, so with inbound `lod = 0` the
scheduled request carries `lod = 0`, the emitted tile message carries
`lod = 0`, and the tile is cached under a key whose `lod` field is `0` —
the clamp to `1` never reaches any consumer. -/
theorem lod_clamp_applied_too_late :
    buildRequests c3Request.params c3Request.tiles = [⟨0, 0, 0⟩] ∧
    ((wsHandlerBatch opsDefault c3Request [] 0).1.map TileMessage.lod) = [0] ∧
    ((wsHandlerBatch opsDefault c3Request [] 0).2.map Prod.fst)
      = [getTileKey (clampParams c3Request.params) 0 0 0 ⟨0, 0⟩] := by
  refine ⟨?_, ?_, ?_⟩
  · decide
  · decide
  · decide

theorem streamTiles_append {β : Type} (enc : List (List RGBA) → Option β)
    (l₁ l₂ : List P0Tile) :
    streamTiles enc (l₁ ++ l₂) = streamTiles enc l₁ ++ streamTiles enc l₂ := by
  induction l₁ with
  | nil => rfl
  | cons t rest ih =>
    rw [List.cons_append]
    rcases henc : encodeTile enc t with - | m
    · simp only [streamTiles, henc, ih]
    · simp only [streamTiles, henc, ih, List.cons_append]

theorem streamTiles_length_all_some {β : Type} (enc : List (List RGBA) → Option β)
    (l : List P0Tile) (h : ∀ t ∈ l, (encodeTile enc t).isSome) :
    (streamTiles enc l).length = l.length := by
  induction l with
  | nil => rfl
  | cons t rest ih =>
    obtain ⟨m, hm⟩ := Option.isSome_iff_exists.1 (h t (List.mem_cons_self _ _))
    simp only [streamTiles, hm, List.length_cons]
    rw [ih fun t' ht' => h t' (List.mem_cons_of_mem _ ht')]

/-- C8 (error_handling).  An image-encoding failure is tile-local in the
emission loop (`encodeTile` error → `continue`): the failing tile emits
nothing, every other tile of the batch is still delivered (one message
each), and the batch itself completes rather than failing. -/
theorem encode_failure_tile_local {β : Type} (enc : List (List RGBA) → Option β)
    (pre post : List P0Tile) (bad : P0Tile)
    (hbad : encodeTile enc bad = none)
    (hpre : ∀ t ∈ pre, (encodeTile enc t).isSome)
    (hpost : ∀ t ∈ post, (encodeTile enc t).isSome) :
    streamTiles enc (pre ++ bad :: post)
      = streamTiles enc pre ++ streamTiles enc post ∧
    (streamTiles enc pre).length = pre.length ∧
    (streamTiles enc post).length = post.length := by
  refine ⟨?_, streamTiles_length_all_some enc pre hpre,
    streamTiles_length_all_some enc post hpost⟩
  rw [streamTiles_append]
  simp only [streamTiles, hbad]

/-- Encoder for the C8 witness: fails exactly on the empty pixel matrix. -/
def c8Enc : List (List RGBA) → Option Nat :=
  fun im => if im = [] then none else some 1

/-- The tile whose encoding fails in the C8 witness. -/
def c8Bad : P0Tile :=
  ⟨0, 0, 1, [], 0⟩

/-- A tile whose encoding succeeds, dispatched before the failing one. -/
def c8Good1 : P0Tile :=
  ⟨1, 0, 1, [[⟨1, 2, 3, 255⟩]], 0⟩

/-- A tile whose encoding succeeds, dispatched after the failing one. -/
def c8Good2 : P0Tile :=
  ⟨2, 0, 1, [[⟨4, 5, 6, 255⟩]], 0⟩

theorem encode_failure_tile_local_witness :
    (encodeTile c8Enc c8Bad = none) ∧
    (∀ t ∈ [c8Good1], (encodeTile c8Enc t).isSome) ∧
    (∀ t ∈ [c8Good2], (encodeTile c8Enc t).isSome) ∧
    (streamTiles c8Enc ([c8Good1] ++ c8Bad :: [c8Good2])
      = streamTiles c8Enc [c8Good1] ++ streamTiles c8Enc [c8Good2] ∧
    (streamTiles c8Enc [c8Good1]).length = [c8Good1].length ∧
    (streamTiles c8Enc [c8Good2]).length = [c8Good2].length) :=
  ⟨by decide, by decide, by decide,
    encode_failure_tile_local c8Enc [c8Good1] [c8Good2] c8Bad
      (by decide) (by decide) (by decide)⟩

/-- C10 (error_handling).  A malformed entry in the inbound `tiles` list
is not a decode failure: the request-construction loop is total and yields
exactly one `TileRequest` per entry; coordinates the `Sscanf` scan does
not reach stay zero, so a fully malformed entry becomes a request for tile
`(0, 0)` at the batch's lod, and a half-parsed entry keeps the parsed
prefix. -/
theorem malformed_tile_entries (params : JuliaParams) (tiles : List String) :
    (buildRequests params tiles).length = tiles.length ∧
    (buildRequests params tiles
      = tiles.map fun s => ⟨(sscanfTwoInts s).1, (sscanfTwoInts s).2, params.lod⟩) ∧
    sscanfTwoInts "abc" = (0, 0) ∧
    sscanfTwoInts "12;34" = (12, 0) ∧
    sscanfTwoInts "12,34" = (12, 34) ∧
    buildRequests params ["abc"] = [⟨0, 0, params.lod⟩] := by
  have habc : sscanfTwoInts "abc" = (0, 0) := by decide
  refine ⟨by simp [buildRequests], rfl, habc, by decide, by decide, ?_⟩
  simp [buildRequests, habc]

end TileEngine
